import Mathlib

/-
Shallow embedding of the CatLearn particle-fingerprint module
(`atoml/fingerprint/particle_fingerprint.py`) and the model-persistence
helpers (`atoml/utilities/io.py`).

Conventions of the embedding:
* machine floats become exact rationals (ℚ); atomic numbers are ℕ;
* the external collaborators from `ase.ga.utilities` that the generator
  merely calls (distance matrix, neighbour list, per-element distribution
  histogram, connectivity counts) are passed in as function parameters,
  since the repository does not contain their code;
* `get_rdf`, which the generator uses only to locate the first-peak
  distance, is modelled concretely from the specification (histogram of
  pairwise distances over `nbins` bins of width `rmax/nbins`, paired with
  the list of bin centres);
* numpy arrays indexed by loops become total functions from index tuples
  to ℚ, built by folding an increment operation, and `np.ravel`/`reshape`
  become row-major flattening over `List.range`;
* the out-of-range numpy write that `bond_count_vec` can perform when
  `max_bonds` is too small is modelled by returning `Option`: `none` is
  the raised `IndexError`.
-/

namespace CatLearn

/-- An atomic structure: ordered atoms with atomic numbers and 3-D
positions, a cubic simulation cell (stored as its diagonal) and the
auxiliary store, of which the embedding keeps the one slot the module
touches: the cached neighbour list. -/
structure Atoms where
  numbers : List ℕ
  positions : List (ℚ × ℚ × ℚ)
  cell : ℚ × ℚ × ℚ
  info : Option (List (ℕ × ℕ))
deriving Repr, DecidableEq

/-- The fingerprint generator configuration, with the defaults set in
`ParticleFingerprintGenerator.__init__`. -/
structure ParticleFingerprintGenerator where
  atom_types : Option (List ℕ) := none
  max_bonds : ℕ := 13
  get_nl : Bool := false
  dx : ℚ := 1/5
  cell_size : ℚ := 50
  nbin : ℕ := 4
  nbins : ℕ := 5
  rmax : ℚ := 8
deriving Repr, DecidableEq

/-- Entry `dm[i][j]` of a distance matrix given as a list of rows
(0 outside the stored rows). -/
def dmAt (dm : List (List ℚ)) (i j : ℕ) : ℚ :=
  (dm.getD i []).getD j 0

/-- `sorted(set(ns))`: the distinct atomic numbers in ascending order. -/
def sortedElements (ns : List ℕ) : List ℕ :=
  List.insertionSort (· ≤ ·) ns.dedup

/-- `np.argmax`: index of the first occurrence of the maximum of a list
of counts (0 for the empty list, as every count is non-negative). -/
def argmax (l : List ℕ) : ℕ :=
  (l.foldl (fun s v => if s.2.2 < v then (s.1 + 1, s.1, v) else (s.1 + 1, s.2.1, s.2.2))
    ((0 : ℕ), (0 : ℕ), (0 : ℕ))).2.1

/-- The upper-triangle pairwise distances `dm[i][j]`, `i < j`, of a
distance matrix. -/
def pairDistances (dm : List (List ℚ)) : List ℚ :=
  (List.range dm.length).flatMap fun i =>
    ((List.range dm.length).filter fun j => decide (i < j)).map fun j => dmAt dm i j

/-- Modelled from the spec: `get_rdf` (external, `ase.ga.utilities`) on a
precomputed distance matrix returns the RDF curve and the distance bin
centres.  Per the spec the curve is a histogram of the pairwise distances
over `nbins` bins of width `dr = rmax/nbins`; a pair at distance `d` falls
in the 1-based bin `⌈d/dr⌉` (bins beyond `nbins` are dropped) and the
centre of bin `b` (0-based) is `(b + 1/2)·dr`.  Only the location of the
curve's global maximum is consumed by the generator. -/
def get_rdf (dm : List (List ℚ)) (rmax : ℚ) (nbins : ℕ) : List ℕ × List ℚ :=
  let dr := rmax / (nbins : ℚ)
  ((List.range nbins).map fun (b : ℕ) =>
      (pairDistances dm).countP fun d => decide (⌈d / dr⌉ = (b : ℤ) + 1),
   (List.range nbins).map fun (b : ℕ) => ((b : ℚ) + 1/2) * dr)

/-- `dists[np.argmax(rdf)] + 0.2` for the hard-coded window
`get_rdf(data, 10., 200, dm)`: the empirical nearest-neighbour cutoff. -/
def nndist_of (dm : List (List ℚ)) : ℚ :=
  (get_rdf dm 10 200).2.getD (argmax (get_rdf dm 10 200).1) 0 + 1/5

/-- `[j for j in range(len(dm[i])) if dm[i][j] < nndist]`. -/
def neighborsOf (dm : List (List ℚ)) (nndist : ℚ) (i : ℕ) : List ℕ :=
  (List.range (dm.getD i []).length).filter fun j => decide (dmAt dm i j < nndist)

/-- One `+= 1` write into an array modelled as a total function. -/
def bump {ι : Type} [DecidableEq ι] (m : ι → ℚ) (t : ι) : ι → ℚ :=
  fun u => if u = t then m u + 1 else m u

/-- The row/column index of atom `i`: the position of its atomic number
in the sorted distinct-element list. -/
def rowOf (numbers : List ℕ) (i : ℕ) : ℕ :=
  (sortedElements numbers).indexOf (numbers.getD i 0)

/-- All ordered pairs `(i, n)` visited by the double loop of
`nearestneighbour_vec`: every atom `i` with every `n` whose distance to
`i` is below the cutoff. -/
def nnPairs (numbers : List ℕ) (dm : List (List ℚ)) (nndist : ℚ) : List (ℕ × ℕ) :=
  (List.range numbers.length).flatMap fun i =>
    (neighborsOf dm nndist i).map fun n => (i, n)

/-- The raw count matrix `nnmat` of `nearestneighbour_vec` before row
normalization: the increments `nnmat[row][column] += 1` folded over the
visited pairs. -/
def nnmatRaw (numbers : List ℕ) (dm : List (List ℚ)) (nndist : ℚ) : ℕ × ℕ → ℚ :=
  (nnPairs numbers dm nndist).foldl
    (fun m p => bump m (rowOf numbers p.1, rowOf numbers p.2)) (fun _ => 0)

/-- The matrix after the row normalization `nnmat[i] /= (count of atoms
of element i)`. -/
def nnmat (numbers : List ℕ) (dm : List (List ℚ)) (nndist : ℚ) : ℕ × ℕ → ℚ :=
  fun rc =>
    nnmatRaw numbers dm nndist rc /
      ((numbers.count ((sortedElements numbers).getD rc.1 0) : ℚ))

/-- `nearestneighbour_vec(self, data)`: the row-major flattening of the
normalized nearest-neighbour matrix.  The distance matrix
(`self.get_all_distances(data)`, an external collaborator) is passed in as
`dm`.  The generator configuration is never consulted by the source
method, hence the anonymous binder. -/
def ParticleFingerprintGenerator.nearestneighbour_vec
    (_g : ParticleFingerprintGenerator) (data : Atoms) (dm : List (List ℚ)) : List ℚ :=
  let elements := sortedElements data.numbers
  let nndist := nndist_of dm
  (List.range elements.length).flatMap fun r =>
    (List.range elements.length).map fun c => nnmat data.numbers dm nndist (r, c)

/-- `[k for k in range(len(dm[j])) if 0.1 < dm[j][k] < nndist]`. -/
def bondNeighbors (dm : List (List ℚ)) (nndist : ℚ) (j : ℕ) : List ℕ :=
  (List.range (dm.getD j []).length).filter fun k =>
    decide (1/10 < dmAt dm j k ∧ dmAt dm j k < nndist)

/-- The ordered pairs `(j, l)` that reach the increment
`track_nnmat[ln][row][column] += 1` in `bond_count_vec`: atoms whose
qualifying-neighbour count `ln` is at most 12, paired with each of their
qualifying neighbours (`continue` drops the others). -/
def bondPairs (numbers : List ℕ) (dm : List (List ℚ)) (nndist : ℚ) : List (ℕ × ℕ) :=
  (List.range numbers.length).flatMap fun j =>
    if (bondNeighbors dm nndist j).length ≤ 12 then
      (bondNeighbors dm nndist j).map fun k => (j, k)
    else []

/-- The 3-D tensor `track_nnmat` of `bond_count_vec`, as a total function
on index triples `(ln, row, column)`. -/
def track_nnmat (numbers : List ℕ) (dm : List (List ℚ)) (nndist : ℚ) : ℕ × ℕ × ℕ → ℚ :=
  (bondPairs numbers dm nndist).foldl
    (fun m p =>
      bump m ((bondNeighbors dm nndist p.1).length, rowOf numbers p.1, rowOf numbers p.2))
    (fun _ => 0)

/-- `bond_count_vec(self, data)`: `track_nnmat.ravel()`, with the numpy
`IndexError` raised by the write `track_nnmat[ln][row][column]` when
`ln ≥ max_bonds` modelled as `none`.  (A write happens for an atom `j`
exactly when `1 ≤ ln j ≤ 12`.) -/
def ParticleFingerprintGenerator.bond_count_vec
    (g : ParticleFingerprintGenerator) (data : Atoms) (dm : List (List ℚ)) :
    Option (List ℚ) :=
  let elements := sortedElements data.numbers
  let nndist := nndist_of dm
  if (List.range data.numbers.length).any (fun j =>
      let ln := (bondNeighbors dm nndist j).length
      decide (1 ≤ ln ∧ ln ≤ 12 ∧ g.max_bonds ≤ ln)) then
    none
  else
    some ((List.range g.max_bonds).flatMap fun b =>
      (List.range elements.length).flatMap fun r =>
        (List.range elements.length).map fun c =>
          track_nnmat data.numbers dm nndist (b, r, c))

/-- Largest entry of a list of rationals (0 for the empty list); used by
the modelled `atoms.center()`. -/
def listMax : List ℚ → ℚ
  | [] => 0
  | x :: xs => xs.foldl max x

/-- Smallest entry of a list of rationals (0 for the empty list). -/
def listMin : List ℚ → ℚ
  | [] => 0
  | x :: xs => xs.foldl min x

/-- Per-axis translation applied by `atoms.center()`: move the midpoint
of the coordinate range onto the midpoint of the cell edge. -/
def centerShift (edge : ℚ) (xs : List ℚ) : ℚ :=
  edge / 2 - (listMax xs + listMin xs) / 2

/-- Modelled from the spec: `atoms.center()` (external, `ase`) re-centers
the atoms within the cell — each coordinate axis is translated so that
the bounding box of the positions is centred on the cubic cell of edge
`edge`. -/
def centerPositions (edge : ℚ) (ps : List (ℚ × ℚ × ℚ)) : List (ℚ × ℚ × ℚ) :=
  let sx := centerShift edge (ps.map fun p => p.1)
  let sy := centerShift edge (ps.map fun p => p.2.1)
  let sz := centerShift edge (ps.map fun p => p.2.2)
  ps.map fun p => (p.1 + sx, p.2.1 + sy, p.2.2 + sz)

/-- `if self.atom_types is None: self.atom_types = frozenset(...)` — the
lazy element-set resolution shared by `distribution_vec` and
`connections_vec`.  The frozenset is represented by its sorted list of
distinct members. -/
def resolveTypes (g : ParticleFingerprintGenerator) (atoms : Atoms) :
    ParticleFingerprintGenerator :=
  match g.atom_types with
  | some _ => g
  | none => { g with atom_types := some (sortedElements atoms.numbers) }

/-- The type of the external `get_neighborlist(atoms, dx)` collaborator:
a function of the composition, the positions and the margin `dx`. -/
def NlProvider : Type :=
  List ℕ → List (ℚ × ℚ × ℚ) → ℚ → List (ℕ × ℕ)

/-- The type of the external `get_atoms_distribution(atoms,
number_of_bins, no_count_types)` collaborator: a function of the
composition, the positions, the cell, the bin count and the excluded
types. -/
def DistProvider : Type :=
  List ℕ → List (ℚ × ℚ × ℚ) → (ℚ × ℚ × ℚ) → ℕ → List ℕ → List ℚ

/-- The type of the external `get_atoms_connections(atoms, max_conn,
no_count_types)` collaborator. -/
def ConnProvider : Type :=
  List ℕ → List (ℚ × ℚ × ℚ) → ℕ → List ℕ → List ℚ

/-- `distribution_vec(self, atoms)`: sets the cubic cell, re-centers the
atoms, optionally attaches a fresh neighbour list into the auxiliary
store, lazily resolves the element set, and concatenates one
distribution histogram per element type.  Returns the vector together
with the updated generator state and the mutated structure. -/
def ParticleFingerprintGenerator.distribution_vec
    (gad : DistProvider) (gnl : NlProvider)
    (g : ParticleFingerprintGenerator) (atoms : Atoms) :
    List ℚ × ParticleFingerprintGenerator × Atoms :=
  let atoms := { atoms with
    cell := (g.cell_size, g.cell_size, g.cell_size),
    positions := centerPositions g.cell_size atoms.positions }
  let atoms := if g.get_nl then
      { atoms with info := some (gnl atoms.numbers atoms.positions g.dx) }
    else atoms
  let g := resolveTypes g atoms
  ((g.atom_types.getD []).flatMap fun i =>
      gad atoms.numbers atoms.positions atoms.cell g.nbin [i],
   g, atoms)

/-- `connections_vec(self, atoms)`: optionally attaches a fresh neighbour
list, lazily resolves the element set, and appends the connectivity
counts obtained for each element type. -/
def ParticleFingerprintGenerator.connections_vec
    (gac : ConnProvider) (gnl : NlProvider)
    (g : ParticleFingerprintGenerator) (atoms : Atoms) :
    List ℚ × ParticleFingerprintGenerator × Atoms :=
  let atoms := if g.get_nl then
      { atoms with info := some (gnl atoms.numbers atoms.positions g.dx) }
    else atoms
  let g := resolveTypes g atoms
  ((g.atom_types.getD []).flatMap fun an =>
      gac atoms.numbers atoms.positions g.max_bonds [an],
   g, atoms)

/-- Modelled from the spec: the fallback partial RDF (external,
`ase.ga.utilities.get_rdf` with `elements=c` and `no_dists=True`)
restricted to the ordered element pair `c`: the histogram, over `nbins`
bins of width `rmax/nbins`, of the distances `dm[i][j]` between distinct
atoms with `numbers[i] = c.1` and `numbers[j] = c.2`. -/
def pair_rdf (numbers : List ℕ) (dm : List (List ℚ)) (rmax : ℚ) (nbins : ℕ)
    (c : ℕ × ℕ) : List ℚ :=
  let dr := rmax / (nbins : ℚ)
  let ds := (List.range numbers.length).flatMap fun i =>
    (((List.range numbers.length).filter fun j =>
        decide (i ≠ j ∧ numbers.getD i 0 = c.1 ∧ numbers.getD j 0 = c.2)).map
      fun j => dmAt dm i j)
  (List.range nbins).map fun (b : ℕ) =>
    ((ds.countP fun d => decide (⌈d / dr⌉ = (b : ℤ) + 1) : ℕ) : ℚ)

/-- `rdf_vec(self, atoms)` on the fallback path: one partial RDF for
every ordered pair drawn from the distinct atomic numbers present in the
structure (`product(set(atoms.numbers), repeat=2)`), concatenated.  The
distance matrix `atoms.get_all_distances()` is passed as `dm`. -/
def ParticleFingerprintGenerator.rdf_vec
    (g : ParticleFingerprintGenerator) (atoms : Atoms) (dm : List (List ℚ)) : List ℚ :=
  let present := atoms.numbers.dedup
  present.flatMap fun a =>
    present.flatMap fun b => pair_rdf atoms.numbers dm g.rmax g.nbins (a, b)

/-- A file store: file names to byte contents. -/
def FileStore : Type := String → Option (List ℕ)

/-- `write(filename, model)` from `atoml/utilities/io.py`: serialize the
model into the file `filename + '.pkl'`.  The external `pickle.dump` is
passed in as `dump`. -/
def write {α : Type} (dump : α → List ℕ) (fs : FileStore) (filename : String)
    (model : α) : FileStore :=
  fun f => if f = filename ++ ".pkl" then some (dump model) else fs f

/-- `read(filename)` from `atoml/utilities/io.py`: deserialize the
contents of the file `filename + '.pkl'` (the external `pickle.load` is
passed in as `load`); a missing file is an error (`none`). -/
def read {α : Type} (load : List ℕ → Option α) (fs : FileStore)
    (filename : String) : Option α :=
  (fs (filename ++ ".pkl")).bind load

/-! ### Concrete fixtures

The boundary scenario of the specification: two atoms of atomic number 26
at distance 2.5, with the explicit element set `[26]`. -/

/-- Distance matrix of the two-atom iron dimer at bond length 5/2. -/
def dmFe : List (List ℚ) := [[0, 5/2], [5/2, 0]]

/-- The two-atom iron dimer structure. -/
def atomsFe : Atoms := { numbers := [26, 26], positions := [], cell := (0, 0, 0), info := none }

/-- A generator configured with the explicit element set `[26]`. -/
def pfgFe : ParticleFingerprintGenerator := { atom_types := some [26] }

set_option maxHeartbeats 4000000 in
set_option maxRecDepth 100000 in
/-- On the dimer's distance matrix the single populated RDF bin is the
one containing 5/2, whose centre is 2.475, so the empirical cutoff is
2.675 = 107/40. -/
theorem nndist_dmFe : nndist_of dmFe = 107/40 := by
  norm_num [nndist_of, get_rdf, pairDistances, dmAt, dmFe, argmax, List.range_succ]

/-! ### Counting machinery for the increment folds -/

theorem foldl_bump_apply {α ι : Type} [DecidableEq ι] (l : List α) (f : α → ι)
    (m : ι → ℚ) (t : ι) :
    (l.foldl (fun m a => bump m (f a)) m) t = m t + l.countP (fun a => decide (f a = t)) := by
  induction l generalizing m with
  | nil => simp
  | cons a l ih =>
    simp only [List.foldl_cons, ih, List.countP_cons, bump]
    rcases eq_or_ne (f a) t with h | h
    · simp [h, add_comm, add_assoc, add_left_comm]
    · simp [h, Ne.symm h]

theorem countP_flatMap {α β : Type} (l : List α) (f : α → List β) (p : β → Bool) :
    (l.flatMap f).countP p = (l.map fun a => (f a).countP p).sum := by
  induction l with
  | nil => simp
  | cons a l ih => simp [List.flatMap_cons, List.countP_append, ih]

theorem sum_map_range_eq {M : Type} [AddCommMonoid M] (n : ℕ) (f : ℕ → M) :
    ((List.range n).map f).sum = ∑ i ∈ Finset.range n, f i := by
  induction n with
  | zero => simp
  | succ n ih => simp [List.range_succ, Finset.sum_range_succ, ih]

/-- Collapsing a sum of bucketed counts: if every element satisfying `q`
has its bucket `g` below `P`, summing the per-bucket counts over the
buckets `0 … P-1` recovers the total count of `q`. -/
theorem sum_range_countP_eq {α : Type} (l : List α) (g : α → ℕ) (q : α → Bool) (P : ℕ)
    (hg : ∀ a, a ∈ l → q a = true → g a < P) :
    ((List.range P).map fun c => l.countP fun a => q a && decide (g a = c)).sum
      = l.countP q := by
  induction l with
  | nil => simp
  | cons a l ih =>
    have ha : ∀ b, b ∈ l → q b = true → g b < P := fun b hb => hg b (List.mem_cons_of_mem a hb)
    simp only [List.countP_cons, sum_map_range_eq] at *
    rw [Finset.sum_add_distrib, ih ha]
    congr 1
    rcases hq : q a with _ | _
    · simp
    · have : g a < P := hg a (List.mem_cons_self a l) hq
      simp [Finset.sum_ite_eq, Finset.mem_range, this]

/-! ### Properties of the sorted element list -/

theorem mem_sortedElements {x : ℕ} {ns : List ℕ} : x ∈ sortedElements ns ↔ x ∈ ns := by
  rw [sortedElements, (List.perm_insertionSort (· ≤ ·) ns.dedup).mem_iff, List.mem_dedup]

theorem nodup_sortedElements (ns : List ℕ) : (sortedElements ns).Nodup :=
  (List.perm_insertionSort (· ≤ ·) ns.dedup).nodup_iff.mpr (List.nodup_dedup ns)

theorem sortedElements_getD_mem {ns : List ℕ} {r : ℕ}
    (hr : r < (sortedElements ns).length) : (sortedElements ns).getD r 0 ∈ ns := by
  rw [List.getD_eq_getElem?_getD, List.getElem?_eq_getElem hr]
  exact mem_sortedElements.mp (List.getElem_mem hr)

/-- For `r` in range, `rowOf numbers i = r` exactly when atom `i` carries
the `r`-th sorted element. -/
theorem rowOf_eq_iff {numbers : List ℕ} {i r : ℕ}
    (hr : r < (sortedElements numbers).length) :
    rowOf numbers i = r ↔ numbers.getD i 0 = (sortedElements numbers).getD r 0 := by
  have hget : (sortedElements numbers).getD r 0 = (sortedElements numbers)[r] := by
    rw [List.getD_eq_getElem?_getD (sortedElements numbers), List.getElem?_eq_getElem hr,
      Option.getD_some]
  rw [hget, rowOf]
  constructor
  · intro h
    subst h
    exact (List.getElem_indexOf hr).symm
  · intro h
    rw [h]
    exact List.indexOf_getElem (nodup_sortedElements numbers) r hr

/-! ### The nearest-neighbour matrix as a pair count -/

theorem nnmatRaw_apply (numbers : List ℕ) (dm : List (List ℚ)) (nndist : ℚ) (t : ℕ × ℕ) :
    nnmatRaw numbers dm nndist t =
      ((nnPairs numbers dm nndist).countP fun p =>
        decide ((rowOf numbers p.1, rowOf numbers p.2) = t) : ℕ) := by
  have h := foldl_bump_apply (nnPairs numbers dm nndist)
    (fun p => (rowOf numbers p.1, rowOf numbers p.2)) (fun _ => 0) t
  simpa using h

theorem track_nnmat_apply (numbers : List ℕ) (dm : List (List ℚ)) (nndist : ℚ)
    (t : ℕ × ℕ × ℕ) :
    track_nnmat numbers dm nndist t =
      ((bondPairs numbers dm nndist).countP fun p =>
        decide (((bondNeighbors dm nndist p.1).length, rowOf numbers p.1, rowOf numbers p.2)
          = t) : ℕ) := by
  have h := foldl_bump_apply (bondPairs numbers dm nndist)
    (fun p => ((bondNeighbors dm nndist p.1).length, rowOf numbers p.1, rowOf numbers p.2))
    (fun _ => 0) t
  simpa using h

/-- Positional indexing into the row-major flattening of an `n × m`
matrix of rationals. -/
theorem flatMap_range_map_getD (n m : ℕ) (f : ℕ → ℕ → ℚ) (i j : ℕ)
    (hi : i < n) (hj : j < m) :
    (((List.range n).flatMap fun r => (List.range m).map (f r)).getD (i * m + j) 0) = f i j := by
  induction n with
  | zero => omega
  | succ n ih =>
    have hlen : ((List.range n).flatMap fun r => (List.range m).map (f r)).length = n * m := by
      rw [List.length_flatMap]
      simp only [Function.comp_def, List.length_map, List.length_range, List.map_const']
      rw [List.sum_replicate, smul_eq_mul]
    rw [List.range_succ, List.flatMap_append, List.flatMap_cons, List.flatMap_nil,
      List.append_nil, List.getD_eq_getElem?_getD]
    rcases Nat.lt_or_ge i n with h | h
    · have hidx : i * m + j < n * m := by
        have h1 : i * m + j < (i + 1) * m := by rw [Nat.succ_mul]; omega
        have h2 : (i + 1) * m ≤ n * m := Nat.mul_le_mul_right m h
        omega
      rw [List.getElem?_append_left (by rw [hlen]; exact hidx), ← List.getD_eq_getElem?_getD]
      exact ih h
    · have hi' : i = n := by omega
      subst hi'
      rw [List.getElem?_append_right (by rw [hlen]; omega)]
      rw [hlen, Nat.add_sub_cancel_left, List.getElem?_map, List.getElem?_range hj,
        Option.map_some', Option.getD_some]

/-! ### Claim C1: shape and layout of the nearest-neighbour vector -/

/-- A structure holding a single atom of atomic number 26, with its
1 × 1 distance matrix, used against a generator configured with the
two-element explicit set `[26, 29]`. -/
def atomsMono : Atoms := { numbers := [26], positions := [], cell := (0, 0, 0), info := none }

/-- The 1 × 1 distance matrix of `atomsMono`. -/
def dmMono : List (List ℚ) := [[0]]

/-- A generator configured with the explicit two-element set `[26, 29]`. -/
def pfgCuFe : ParticleFingerprintGenerator := { atom_types := some [26, 29] }

/-- C1, counterexample: with the explicit element set `[26, 29]` of
cardinality 2 the nearest-neighbour vector of a one-element structure has
length 1, not 2² = 4 — `nearestneighbour_vec` ignores `atom_types`. -/
theorem C1_nn_length_counterexample :
    pfgCuFe.atom_types = some [26, 29] ∧ ([26, 29] : List ℕ).length = 2 ∧
      (pfgCuFe.nearestneighbour_vec atomsMono dmMono).length = 1 ∧
      (pfgCuFe.nearestneighbour_vec atomsMono dmMono).length ≠ 2 ^ 2 := by
  refine ⟨rfl, rfl, rfl, ?_⟩
  have h : (pfgCuFe.nearestneighbour_vec atomsMono dmMono).length = 1 := rfl
  omega

/-- C1, amended: the nearest-neighbour vector has length P² where `P` is
the number of distinct atomic numbers present in the structure; entry
`r·P + c` is the normalized count for the `r`-th and `c`-th of the
present elements taken in sorted ascending order; the configured
`atom_types` plays no role. -/
theorem C1_nn_length_amended (g : ParticleFingerprintGenerator) (data : Atoms)
    (dm : List (List ℚ)) :
    (g.nearestneighbour_vec data dm).length = (sortedElements data.numbers).length ^ 2 ∧
    List.Sorted (· ≤ ·) (sortedElements data.numbers) ∧
    (∀ r c, r < (sortedElements data.numbers).length →
      c < (sortedElements data.numbers).length →
      (g.nearestneighbour_vec data dm).getD (r * (sortedElements data.numbers).length + c) 0
        = nnmat data.numbers dm (nndist_of dm) (r, c)) ∧
    (∀ t, ({ g with atom_types := t }).nearestneighbour_vec data dm
        = g.nearestneighbour_vec data dm) := by
  refine ⟨?_, List.sorted_insertionSort _ _, fun r c hr hc => ?_, fun _ => rfl⟩
  · simp only [ParticleFingerprintGenerator.nearestneighbour_vec]
    rw [List.length_flatMap]
    simp only [Function.comp_def, List.length_map, List.length_range, List.map_const']
    rw [List.sum_replicate, smul_eq_mul, sq]
  · exact flatMap_range_map_getD _ _ _ r c hr hc

/-- C1, witness: the amended statement evaluated on the iron dimer. -/
theorem C1_nn_length_witness :
    (pfgFe.nearestneighbour_vec atomsFe dmFe).length = (sortedElements atomsFe.numbers).length ^ 2
    ∧ (pfgFe.nearestneighbour_vec atomsFe dmFe).getD 0 0
        = nnmat atomsFe.numbers dmFe (nndist_of dmFe) (0, 0) := by
  refine ⟨(C1_nn_length_amended pfgFe atomsFe dmFe).1, ?_⟩
  have h := (C1_nn_length_amended pfgFe atomsFe dmFe).2.2.1 0 0 (by decide) (by decide)
  simpa using h

/-! ### Claim C2: self-pairs pass the cutoff test -/

theorem getD_nonneg {l : List ℚ} (h : ∀ x ∈ l, 0 ≤ x) (k : ℕ) : 0 ≤ l.getD k 0 := by
  rw [List.getD_eq_getElem?_getD]
  rcases hx : l[k]? with _ | x
  · simp
  · simpa using h x (List.getElem?_mem hx)

theorem nndist_pos (dm : List (List ℚ)) : 0 < nndist_of dm := by
  rw [nndist_of]
  have h : (0:ℚ) ≤ (get_rdf dm 10 200).2.getD (argmax (get_rdf dm 10 200).1) 0 := by
    apply getD_nonneg
    intro x hx
    simp only [get_rdf, List.mem_map] at hx
    obtain ⟨b, _, rfl⟩ := hx
    positivity
  linarith

/-- C2: the diagonal entry 0 of the distance matrix passes the strict
test `0 < nndist`, so every atom lists itself among its neighbours; and
on the two-atom iron dimer at distance 5/2 with `atom_types = [26]` the
vector is exactly `[2]`. -/
theorem C2_self_pairs (dm : List (List ℚ)) (i : ℕ)
    (hrow : i < (dm.getD i []).length) (hdiag : dmAt dm i i = 0) :
    (0 < nndist_of dm ∧ i ∈ neighborsOf dm (nndist_of dm) i) ∧
    (pfgFe.nearestneighbour_vec atomsFe dmFe).length = 1 ∧
    pfgFe.nearestneighbour_vec atomsFe dmFe = [2] := by
  have hconc : pfgFe.nearestneighbour_vec atomsFe dmFe = [2] := by
    simp only [ParticleFingerprintGenerator.nearestneighbour_vec, nnmat, nnmatRaw, nnPairs,
      neighborsOf, nndist_dmFe]
    norm_num [bump, rowOf, dmAt, dmFe, atomsFe, sortedElements, List.range_succ, List.dedup,
      List.insertionSort, List.orderedInsert, List.indexOf, List.findIdx, List.findIdx.go,
      show ([26, 26] : List ℕ)[1] = 26 from rfl]
  refine ⟨⟨nndist_pos dm, ?_⟩, by rw [hconc]; rfl, hconc⟩
  refine List.mem_filter.mpr ⟨List.mem_range.mpr hrow, ?_⟩
  exact decide_eq_true (by rw [hdiag]; exact nndist_pos dm)

/-- C2, witness: instantiated at atom 0 of the iron dimer. -/
theorem C2_self_pairs_witness :
    (0 < nndist_of dmFe ∧ 0 ∈ neighborsOf dmFe (nndist_of dmFe) 0) ∧
    (pfgFe.nearestneighbour_vec atomsFe dmFe).length = 1 ∧
    pfgFe.nearestneighbour_vec atomsFe dmFe = [2] :=
  C2_self_pairs dmFe 0 (by decide) rfl

/-! ### Claim C7: row-normalization round-trip -/

theorem nnPairs_mem {numbers : List ℕ} {dm : List (List ℚ)} {nndist : ℚ} {p : ℕ × ℕ}
    (hp : p ∈ nnPairs numbers dm nndist) :
    p.1 < numbers.length ∧ p.2 ∈ neighborsOf dm nndist p.1 := by
  simp only [nnPairs, List.mem_flatMap, List.mem_map, List.mem_range] at hp
  obtain ⟨i, hi, n, hn, rfl⟩ := hp
  exact ⟨hi, hn⟩

theorem rowOf_lt {numbers : List ℕ} {k : ℕ} (hk : k < numbers.length) :
    rowOf numbers k < (sortedElements numbers).length := by
  apply List.indexOf_lt_length.mpr
  apply mem_sortedElements.mpr
  rw [List.getD_eq_getElem?_getD, List.getElem?_eq_getElem hk, Option.getD_some]
  exact List.getElem_mem hk

theorem sum_map_range_cast (P : ℕ) (f : ℕ → ℕ) :
    ((List.range P).map fun c => ((f c : ℕ) : ℚ)).sum = (((List.range P).map f).sum : ℚ) := by
  rw [sum_map_range_eq, sum_map_range_eq, Nat.cast_sum]

/-- C7: dividing row `r` by the count of atoms of the `r`-th element is
undone by multiplying back (the count is positive since the element is
present), and the raw row sums to the total neighbour count collected by
atoms of that element. -/
theorem C7_row_roundtrip (data : Atoms) (dm : List (List ℚ)) (r : ℕ)
    (hdm : ∀ i < data.numbers.length, (dm.getD i []).length = data.numbers.length)
    (hr : r < (sortedElements data.numbers).length) :
    (∀ c, ((data.numbers.count ((sortedElements data.numbers).getD r 0) : ℚ))
        * nnmat data.numbers dm (nndist_of dm) (r, c)
        = nnmatRaw data.numbers dm (nndist_of dm) (r, c)) ∧
    ((List.range (sortedElements data.numbers).length).map fun c =>
        nnmatRaw data.numbers dm (nndist_of dm) (r, c)).sum
      = ((List.range data.numbers.length).map fun i =>
          if data.numbers.getD i 0 = (sortedElements data.numbers).getD r 0
          then ((neighborsOf dm (nndist_of dm) i).length : ℚ) else 0).sum := by
  constructor
  · intro c
    have hmem : (sortedElements data.numbers).getD r 0 ∈ data.numbers :=
      sortedElements_getD_mem hr
    have hcnt : ((data.numbers.count ((sortedElements data.numbers).getD r 0) : ℕ) : ℚ) ≠ 0 := by
      exact_mod_cast (List.count_pos_iff.mpr hmem).ne'
    simp only [nnmat]
    rw [mul_comm, div_mul_cancel₀ _ hcnt]
  · have key : ∀ c, nnmatRaw data.numbers dm (nndist_of dm) (r, c)
        = (((nnPairs data.numbers dm (nndist_of dm)).countP fun p =>
            decide (rowOf data.numbers p.1 = r) && decide (rowOf data.numbers p.2 = c) : ℕ) : ℚ) := by
      intro c
      rw [nnmatRaw_apply]
      norm_num [Prod.ext_iff]
    have hg : ∀ p ∈ nnPairs data.numbers dm (nndist_of dm),
        decide (rowOf data.numbers p.1 = r) = true →
          rowOf data.numbers p.2 < (sortedElements data.numbers).length := by
      intro p hp _
      obtain ⟨h1, h2⟩ := nnPairs_mem hp
      have hlt : p.2 < data.numbers.length := by
        have hmem := List.mem_range.mp (List.mem_filter.mp h2).1
        rwa [hdm p.1 h1] at hmem
      exact rowOf_lt hlt
    have hsum := sum_range_countP_eq (nnPairs data.numbers dm (nndist_of dm))
      (fun p => rowOf data.numbers p.2) (fun p => decide (rowOf data.numbers p.1 = r))
      (sortedElements data.numbers).length hg
    rw [sum_map_range_eq] at hsum
    have hflat : ((nnPairs data.numbers dm (nndist_of dm)).countP fun p =>
          decide (rowOf data.numbers p.1 = r))
        = ((List.range data.numbers.length).map fun i =>
            if data.numbers.getD i 0 = (sortedElements data.numbers).getD r 0
            then (neighborsOf dm (nndist_of dm) i).length else 0).sum := by
      rw [nnPairs, countP_flatMap]
      refine congrArg List.sum (List.map_congr_left fun i hi => ?_)
      rw [List.countP_map]
      by_cases hir : rowOf data.numbers i = r
      · rw [if_pos ((rowOf_eq_iff hr).mp hir)]
        simp [Function.comp_def, hir]
      · rw [if_neg (fun hc => hir ((rowOf_eq_iff hr).mpr hc))]
        simp [Function.comp_def, hir]
    simp only [key]
    rw [sum_map_range_eq, sum_map_range_eq, ← Nat.cast_sum, hsum, hflat, sum_map_range_eq,
      Nat.cast_sum]
    exact Finset.sum_congr rfl fun i _ => by split <;> simp

/-- C7, witness: the round-trip on the iron dimer, row 0. -/
theorem C7_row_roundtrip_witness :
    (((atomsFe.numbers.count ((sortedElements atomsFe.numbers).getD 0 0) : ℚ))
        * nnmat atomsFe.numbers dmFe (nndist_of dmFe) (0, 0)
        = nnmatRaw atomsFe.numbers dmFe (nndist_of dmFe) (0, 0)) ∧
    ((List.range (sortedElements atomsFe.numbers).length).map fun c =>
        nnmatRaw atomsFe.numbers dmFe (nndist_of dmFe) (0, c)).sum
      = ((List.range atomsFe.numbers.length).map fun i =>
          if atomsFe.numbers.getD i 0 = (sortedElements atomsFe.numbers).getD 0 0
          then ((neighborsOf dmFe (nndist_of dmFe) i).length : ℚ) else 0).sum :=
  ⟨(C7_row_roundtrip atomsFe dmFe 0 (by decide) (by decide)).1 0,
   (C7_row_roundtrip atomsFe dmFe 0 (by decide) (by decide)).2⟩

/-! ### Claims C3 and C9: the bond-count tensor -/

/-- With `max_bonds ≥ 13` the guard of the skipped-write error is never
triggered, so `bond_count_vec` returns the flattened tensor. -/
theorem bond_count_vec_unguarded (g : ParticleFingerprintGenerator) (data : Atoms)
    (dm : List (List ℚ)) (h : 13 ≤ g.max_bonds) :
    g.bond_count_vec data dm
      = some ((List.range g.max_bonds).flatMap fun b =>
          (List.range (sortedElements data.numbers).length).flatMap fun r =>
            (List.range (sortedElements data.numbers).length).map fun c =>
              track_nnmat data.numbers dm (nndist_of dm) (b, r, c)) := by
  simp only [ParticleFingerprintGenerator.bond_count_vec]
  split
  · next hguard =>
    exfalso
    rw [List.any_eq_true] at hguard
    obtain ⟨j, hj, hd⟩ := hguard
    simp only [decide_eq_true_eq] at hd
    omega
  · rfl

/-- The per-cell count of the bond tensor, at the level of natural
numbers: cell `(b, r, c)` receives one increment per pair of an atom `j`
with qualifying-neighbour count `b ≤ 12` and row type `r` and one of its
qualifying neighbours of column type `c`. -/
theorem bondPairs_countP (numbers : List ℕ) (dm : List (List ℚ)) (nd : ℚ) (b r c : ℕ) :
    ((bondPairs numbers dm nd).countP fun p =>
        decide (((bondNeighbors dm nd p.1).length, rowOf numbers p.1, rowOf numbers p.2)
          = (b, r, c)))
      = ((List.range numbers.length).map fun j =>
          if (bondNeighbors dm nd j).length = b ∧ b ≤ 12 ∧ rowOf numbers j = r
          then ((bondNeighbors dm nd j).filter fun k => decide (rowOf numbers k = c)).length
          else 0).sum := by
  rw [bondPairs, countP_flatMap]
  refine congrArg List.sum (List.map_congr_left fun j hj => ?_)
  by_cases hln : (bondNeighbors dm nd j).length ≤ 12
  · rw [if_pos hln, List.countP_map]
    by_cases hbr : (bondNeighbors dm nd j).length = b ∧ rowOf numbers j = r
    · obtain ⟨hb, hrj⟩ := hbr
      rw [if_pos ⟨hb, by omega, hrj⟩, List.countP_eq_length_filter]
      refine congrArg List.length (List.filter_congr fun k hk => ?_)
      simp [Function.comp_def, Prod.ext_iff, hb, hrj]
    · rw [if_neg fun hc => hbr ⟨hc.1, hc.2.2⟩, List.countP_eq_zero]
      intro k hk
      simp only [Function.comp_def, decide_eq_true_eq, Prod.ext_iff]
      intro hc
      exact hbr ⟨hc.1, hc.2.1⟩
  · rw [if_neg hln, if_neg fun hc => hln (by omega)]
    simp

/-- The bond tensor cell characterized as the claim states it, with the
rational-valued sum. -/
theorem track_nnmat_char (numbers : List ℕ) (dm : List (List ℚ)) (nd : ℚ) (b r c : ℕ) :
    track_nnmat numbers dm nd (b, r, c)
      = ((List.range numbers.length).map fun j =>
          if (bondNeighbors dm nd j).length = b ∧ b ≤ 12 ∧ rowOf numbers j = r
          then (((bondNeighbors dm nd j).filter fun k =>
                  decide (rowOf numbers k = c)).length : ℚ)
          else 0).sum := by
  rw [track_nnmat_apply, bondPairs_countP, sum_map_range_eq, Nat.cast_sum, sum_map_range_eq]
  exact Finset.sum_congr rfl fun i _ => by split <;> simp

/-- The bond-count vector as the claim describes it: the row-major
flattening, over coordination `b < max_bonds` and the sorted present
elements `r`, `c`, of the per-atom contributions: an atom `j` contributes
its type-`c` qualifying neighbours to cell `(b, r, c)` exactly when its
qualifying-neighbour count is `b`, at most 12, and its own type index is
`r`. -/
def bond_count_spec (g : ParticleFingerprintGenerator) (data : Atoms)
    (dm : List (List ℚ)) : List ℚ :=
  (List.range g.max_bonds).flatMap fun b =>
    (List.range (sortedElements data.numbers).length).flatMap fun r =>
      (List.range (sortedElements data.numbers).length).map fun c =>
        ((List.range data.numbers.length).map fun j =>
          if (bondNeighbors dm (nndist_of dm) j).length = b ∧ b ≤ 12
              ∧ rowOf data.numbers j = r
          then (((bondNeighbors dm (nndist_of dm) j).filter fun k =>
                  decide (rowOf data.numbers k = c)).length : ℚ)
          else 0).sum

/-- C3: under the in-range precondition `max_bonds ≥ 13` (satisfied by
the default configuration), `bond_count_vec` succeeds and equals the
claimed characterization: qualifying neighbours are exactly those at
distance strictly between 0.1 and the cutoff, atoms with more than 12 of
them contribute nothing, and every other atom increments
`T[ln][type(j)][type(k)]` once per qualifying neighbour `k`. -/
theorem C3_bond_count_characterization (g : ParticleFingerprintGenerator) (data : Atoms)
    (dm : List (List ℚ)) (h : 13 ≤ g.max_bonds) :
    g.bond_count_vec data dm = some (bond_count_spec g data dm) := by
  rw [bond_count_vec_unguarded g data dm h, bond_count_spec]
  simp only [track_nnmat_char]

/-- C3, witness: the characterization on the iron dimer with the default
`max_bonds = 13`. -/
theorem C3_bond_count_witness :
    13 ≤ pfgFe.max_bonds ∧
    pfgFe.bond_count_vec atomsFe dmFe = some (bond_count_spec pfgFe atomsFe dmFe) :=
  ⟨by decide, C3_bond_count_characterization pfgFe atomsFe dmFe (by decide)⟩

/-- C9: with `max_bonds ≥ 13` the guard `ln > 12` keeps every performed
write of `bond_count_vec` within the tensor's first axis, so no error is
raised; and there is a configuration with `max_bonds < 13` and a
structure for which the write goes out of range (the `IndexError`, here
`none`). -/
theorem C9_bond_index_safety :
    (∀ (g : ParticleFingerprintGenerator) (data : Atoms) (dm : List (List ℚ)),
        13 ≤ g.max_bonds → (g.bond_count_vec data dm).isSome = true) ∧
    (∃ (g : ParticleFingerprintGenerator) (data : Atoms) (dm : List (List ℚ)),
        g.max_bonds < 13 ∧ g.bond_count_vec data dm = none) := by
  constructor
  · intro g data dm h
    rw [bond_count_vec_unguarded g data dm h]
    rfl
  · refine ⟨{ max_bonds := 1 }, atomsFe, dmFe, by norm_num, ?_⟩
    simp only [ParticleFingerprintGenerator.bond_count_vec, bondNeighbors, nndist_dmFe]
    norm_num [dmAt, dmFe, atomsFe, List.range_succ]

/-- C9, witness: the safe direction applied to the default
configuration. -/
theorem C9_bond_index_safety_witness :
    (pfgFe.bond_count_vec atomsFe dmFe).isSome = true :=
  C9_bond_index_safety.1 pfgFe atomsFe dmFe (by decide)

/-! ### Claim C4: the partial-RDF vector -/

theorem pair_rdf_length (numbers : List ℕ) (dm : List (List ℚ)) (rmax : ℚ) (nbins : ℕ)
    (c : ℕ × ℕ) : (pair_rdf numbers dm rmax nbins c).length = nbins := by
  simp [pair_rdf]

/-- C4: `rdf_vec` ranges over every ordered pair (with repetition) of the
distinct atomic numbers present in the structure, appending one `nbins`
partial RDF per pair; the output length is therefore P² · nbins for P
present elements, and the configured `atom_types` is never consulted. -/
theorem C4_rdf_vec_pairs (g : ParticleFingerprintGenerator) (atoms : Atoms)
    (dm : List (List ℚ)) :
    (g.rdf_vec atoms dm
      = atoms.numbers.dedup.flatMap fun a =>
          atoms.numbers.dedup.flatMap fun b => pair_rdf atoms.numbers dm g.rmax g.nbins (a, b)) ∧
    (g.rdf_vec atoms dm).length = atoms.numbers.dedup.length ^ 2 * g.nbins ∧
    (∀ t, ({ g with atom_types := t }).rdf_vec atoms dm = g.rdf_vec atoms dm) := by
  refine ⟨rfl, ?_, fun _ => rfl⟩
  simp only [ParticleFingerprintGenerator.rdf_vec]
  rw [List.length_flatMap]
  simp only [Function.comp_def, List.length_flatMap, pair_rdf_length, List.map_const',
    List.sum_replicate, smul_eq_mul, List.length_map]
  ring

/-! ### Claim C5: lazy first-call-wins element-set caching -/

/-- C5: with no explicit element set, the first call to either
`distribution_vec` or `connections_vec` caches the element set inferred
from that structure, and any later call to either method—on any
structure—reuses the cached set unchanged, both in the stored state and
as the iteration order of the returned vector. -/
theorem C5_first_call_wins (gad : DistProvider) (gnl : NlProvider) (gac : ConnProvider)
    (g : ParticleFingerprintGenerator) (h : g.atom_types = none) (s₁ s₂ : Atoms) :
    ((g.distribution_vec gad gnl s₁).2.1.atom_types = some (sortedElements s₁.numbers)) ∧
    ((g.connections_vec gac gnl s₁).2.1.atom_types = some (sortedElements s₁.numbers)) ∧
    (((g.distribution_vec gad gnl s₁).2.1.distribution_vec gad gnl s₂).2.1.atom_types
        = some (sortedElements s₁.numbers)) ∧
    (((g.distribution_vec gad gnl s₁).2.1.connections_vec gac gnl s₂).2.1.atom_types
        = some (sortedElements s₁.numbers)) ∧
    ((g.distribution_vec gad gnl s₁).2.1.distribution_vec gad gnl s₂).1
        = ((sortedElements s₁.numbers).flatMap fun i =>
            gad s₂.numbers (centerPositions g.cell_size s₂.positions)
              (g.cell_size, g.cell_size, g.cell_size) g.nbin [i]) ∧
    ((g.distribution_vec gad gnl s₁).2.1.connections_vec gac gnl s₂).1
        = ((sortedElements s₁.numbers).flatMap fun an =>
            gac s₂.numbers s₂.positions g.max_bonds [an]) := by
  cases hnl : g.get_nl <;>
    simp [ParticleFingerprintGenerator.distribution_vec,
      ParticleFingerprintGenerator.connections_vec, resolveTypes, h, hnl]

/-- Trivial distribution-histogram collaborator used in witnesses. -/
def gadW : DistProvider := fun _ _ _ _ _ => []

/-- Trivial neighbour-list collaborator used in witnesses. -/
def gnlW : NlProvider := fun _ _ _ => []

/-- Trivial connectivity collaborator used in witnesses. -/
def gacW : ConnProvider := fun _ _ _ _ => []

/-- C5, witness: a default generator over the dimer then the single-atom
structure. -/
theorem C5_first_call_wins_witness :
    ((({} : ParticleFingerprintGenerator).distribution_vec gadW gnlW atomsFe).2.1.atom_types
        = some (sortedElements atomsFe.numbers)) ∧
    ((({} : ParticleFingerprintGenerator).connections_vec gacW gnlW atomsFe).2.1.atom_types
        = some (sortedElements atomsFe.numbers)) ∧
    (((({} : ParticleFingerprintGenerator).distribution_vec gadW gnlW atomsFe).2.1.distribution_vec
        gadW gnlW atomsMono).2.1.atom_types = some (sortedElements atomsFe.numbers)) ∧
    (((({} : ParticleFingerprintGenerator).distribution_vec gadW gnlW atomsFe).2.1.connections_vec
        gacW gnlW atomsMono).2.1.atom_types = some (sortedElements atomsFe.numbers)) ∧
    ((({} : ParticleFingerprintGenerator).distribution_vec gadW gnlW atomsFe).2.1.distribution_vec
        gadW gnlW atomsMono).1
        = ((sortedElements atomsFe.numbers).flatMap fun i =>
            gadW atomsMono.numbers
              (centerPositions ({} : ParticleFingerprintGenerator).cell_size atomsMono.positions)
              (({} : ParticleFingerprintGenerator).cell_size,
                ({} : ParticleFingerprintGenerator).cell_size,
                ({} : ParticleFingerprintGenerator).cell_size)
              ({} : ParticleFingerprintGenerator).nbin [i]) ∧
    ((({} : ParticleFingerprintGenerator).distribution_vec gadW gnlW atomsFe).2.1.connections_vec
        gacW gnlW atomsMono).1
        = ((sortedElements atomsFe.numbers).flatMap fun an =>
            gacW atomsMono.numbers atomsMono.positions
              ({} : ParticleFingerprintGenerator).max_bonds [an]) :=
  C5_first_call_wins gadW gnlW gacW {} rfl atomsFe atomsMono

/-! ### Claim C6: the side effects of `distribution_vec` -/

/-- C6: `distribution_vec` overwrites the cell with the isotropic cube of
edge `cell_size`, re-centers the atoms in it, attaches a freshly computed
neighbour list to the auxiliary store exactly when `get_nl` is set, and
leaves the atom list and atomic numbers unchanged. -/
theorem C6_distribution_vec_mutation (gad : DistProvider) (gnl : NlProvider)
    (g : ParticleFingerprintGenerator) (atoms : Atoms) :
    (g.distribution_vec gad gnl atoms).2.2.cell = (g.cell_size, g.cell_size, g.cell_size) ∧
    (g.distribution_vec gad gnl atoms).2.2.positions
        = centerPositions g.cell_size atoms.positions ∧
    (g.distribution_vec gad gnl atoms).2.2.numbers = atoms.numbers ∧
    (g.distribution_vec gad gnl atoms).2.2.info
        = (if g.get_nl then
            some (gnl atoms.numbers (centerPositions g.cell_size atoms.positions) g.dx)
          else atoms.info) := by
  cases hnl : g.get_nl <;>
    simp [ParticleFingerprintGenerator.distribution_vec, hnl]

/-! ### Claim C8: determinism of repeated calls -/

theorem foldl_max_map_add (f : (ℚ × ℚ × ℚ) → ℚ) (s : ℚ) (t : List (ℚ × ℚ × ℚ)) (a : ℚ) :
    (t.map fun q => f q + s).foldl max (a + s) = (t.map f).foldl max a + s := by
  induction t generalizing a with
  | nil => simp
  | cons x t ih => simp only [List.map_cons, List.foldl_cons, max_add_add_right, ih]

theorem foldl_min_map_add (f : (ℚ × ℚ × ℚ) → ℚ) (s : ℚ) (t : List (ℚ × ℚ × ℚ)) (a : ℚ) :
    (t.map fun q => f q + s).foldl min (a + s) = (t.map f).foldl min a + s := by
  induction t generalizing a with
  | nil => simp
  | cons x t ih => simp only [List.map_cons, List.foldl_cons, min_add_add_right, ih]

theorem centerShift_map_add (c : ℚ) (f : (ℚ × ℚ × ℚ) → ℚ) (s : ℚ) (p : ℚ × ℚ × ℚ)
    (t : List (ℚ × ℚ × ℚ)) :
    centerShift c ((f p + s) :: t.map fun q => f q + s)
      = centerShift c (f p :: t.map f) - s := by
  simp only [centerShift, listMax, listMin, foldl_max_map_add, foldl_min_map_add]
  ring

/-- Re-centering is idempotent: once the bounding box is centred in the
cell, the follow-up shift is zero. -/
theorem centerPositions_idem (c : ℚ) (ps : List (ℚ × ℚ × ℚ)) :
    centerPositions c (centerPositions c ps) = centerPositions c ps := by
  cases ps with
  | nil => rfl
  | cons p t =>
    simp only [centerPositions, List.map_cons, List.map_map, Function.comp_def]
    rw [centerShift_map_add c (fun x => x.1) _ p t, centerShift_map_add c (fun x => x.2.1) _ p t,
      centerShift_map_add c (fun x => x.2.2) _ p t, sub_self, sub_self, sub_self]
    simp [add_zero]

/-- C8: with an explicit element set, calling any of the five
vectorization methods a second time—on the generator state and structure
left by the first call for the stateful ones, and on the same unmodified
inputs for the pure ones—produces the identical vector.  Re-centering an
already centred structure is a no-op, the cached element set is left
untouched, and the three distance-matrix-based methods are pure. -/
theorem C8_determinism (g : ParticleFingerprintGenerator) (ats : List ℕ)
    (h : g.atom_types = some ats) (atoms : Atoms) (dm : List (List ℚ))
    (gad : DistProvider) (gnl : NlProvider) (gac : ConnProvider) :
    (((g.distribution_vec gad gnl atoms).2.1.distribution_vec gad gnl
        (g.distribution_vec gad gnl atoms).2.2).1 = (g.distribution_vec gad gnl atoms).1) ∧
    (((g.connections_vec gac gnl atoms).2.1.connections_vec gac gnl
        (g.connections_vec gac gnl atoms).2.2).1 = (g.connections_vec gac gnl atoms).1) ∧
    (g.nearestneighbour_vec atoms dm = g.nearestneighbour_vec atoms dm) ∧
    (g.bond_count_vec atoms dm = g.bond_count_vec atoms dm) ∧
    (g.rdf_vec atoms dm = g.rdf_vec atoms dm) := by
  refine ⟨?_, ?_, rfl, rfl, rfl⟩
  · cases hnl : g.get_nl <;>
      simp [ParticleFingerprintGenerator.distribution_vec, resolveTypes, h, hnl,
        centerPositions_idem]
  · cases hnl : g.get_nl <;>
      simp [ParticleFingerprintGenerator.connections_vec, resolveTypes, h, hnl]

/-- C8, witness: both calls on the iron dimer with the explicit set
`[26]`. -/
theorem C8_determinism_witness :
    (((pfgFe.distribution_vec gadW gnlW atomsFe).2.1.distribution_vec gadW gnlW
        (pfgFe.distribution_vec gadW gnlW atomsFe).2.2).1
      = (pfgFe.distribution_vec gadW gnlW atomsFe).1) ∧
    (((pfgFe.connections_vec gacW gnlW atomsFe).2.1.connections_vec gacW gnlW
        (pfgFe.connections_vec gacW gnlW atomsFe).2.2).1
      = (pfgFe.connections_vec gacW gnlW atomsFe).1) ∧
    (pfgFe.nearestneighbour_vec atomsFe dmFe = pfgFe.nearestneighbour_vec atomsFe dmFe) ∧
    (pfgFe.bond_count_vec atomsFe dmFe = pfgFe.bond_count_vec atomsFe dmFe) ∧
    (pfgFe.rdf_vec atomsFe dmFe = pfgFe.rdf_vec atomsFe dmFe) :=
  C8_determinism pfgFe [26] rfl atomsFe dmFe gadW gnlW gacW

/-! ### Claim C10: model persistence round-trip -/

/-- C10: writing a model and reading it back under the same filename
returns the same model; `write` and `read` address the same file
`filename + '.pkl'`, and the external `pickle` pair is assumed, per the
spec's persistence contract, to round-trip exactly. -/
theorem C10_persistence_roundtrip {α : Type} (dump : α → List ℕ) (load : List ℕ → Option α)
    (h : ∀ a, load (dump a) = some a) (fs : FileStore) (f : String) (m : α) :
    read load (write dump fs f m) f = some m := by
  simp [read, write, h]

/-- A dump/load pair for naturals that round-trips, used as the witness
instantiation of the persistence contract. -/
def natDump : ℕ → List ℕ := fun n => [n]

/-- Inverse of `natDump`. -/
def natLoad : List ℕ → Option ℕ := fun l => l.head?

/-- The empty file store. -/
def emptyFS : FileStore := fun _ => none

/-- C10, witness: a concrete round-trip through the file store. -/
theorem C10_persistence_witness :
    read natLoad (write natDump emptyFS "model" 7) "model" = some 7 :=
  C10_persistence_roundtrip natDump natLoad (fun _ => rfl) emptyFS "model" 7

end CatLearn
